import Mathlib

/-!
Shallow embedding of the brain-seed generator/validator (`src/index.js` of
`electrum-seeder`) and proofs about it.

Modelling conventions:
* JavaScript arbitrary-precision integers (`bn.js` values, always non-negative
  here) are `Nat`.
* Byte buffers are `List Nat` with every entry `< 256`.
* The HMAC-SHA512 hex digest `createHmac('sha512', 'Seed version').update(m).digest('hex')`
  is an external crypto primitive; it is abstracted as a parameter
  `H : String → String` (the hex digest of the message).  All definitions are
  parameterised by `H`.
* The wordlist of a language (`validWordlist(language)` of `bip39-checker`) is a
  `List String`; language-indexed lookup is a `List (String × List String)`.
* JavaScript exceptions are `Except String` values; `checkSeed`'s try/catch is
  the `match` on that `Except`.
* `.toLowerCase()` and `.substring(0, k)` on ASCII strings are embedded at the
  `List Char` level.
-/

namespace Seeder

/-- `DEFAULT_VERSION` from src/index.js line 12. -/
def DEFAULT_VERSION : String := "01"

/-- JavaScript `Number.MAX_SAFE_INTEGER`, the bound of the mining loop. -/
def MAX_SAFE_INTEGER : Nat := 2 ^ 53 - 1

/-- Embedding of JavaScript `Char`-level lowercasing for the basic latin range
(the only range version strings use). -/
def charLower (c : Char) : Char :=
  if 65 ≤ c.toNat ∧ c.toNat ≤ 90 then Char.ofNat (c.toNat + 32) else c

/-- Embedding of JavaScript `String.prototype.toLowerCase` (ASCII range),
acting characterwise on the string data. -/
def toLowerCase (s : String) : String :=
  String.mk (s.data.map charLower)

/-- Embedding of JavaScript `s.substring(0, k)`: the first `k` characters. -/
def substringTo (s : String) (k : Nat) : String :=
  String.mk (s.data.take k)

/-- `seedVersion` from src/index.js lines 163-167:
`createHmac('sha512', 'Seed version').update(brainSeed).digest('hex').substring(0, versionLength)`.
The HMAC hex digest is the abstract parameter `H`. -/
def seedVersion (H : String → String) (brainSeed : String)
    (versionLength : Nat := DEFAULT_VERSION.length) : String :=
  substringTo (H brainSeed) versionLength

/-- Big-endian interpretation of a byte buffer as a natural number
(`new BN(seedBuf)` on a node Buffer). -/
def bufToNat (buf : List Nat) : Nat :=
  buf.foldl (fun acc b => acc * 256 + b) 0

/-- The bit-trimming step of `randomBrainSeed` (src/index.js line 91):
`new BN(seedBuf).shrn(Math.ceil(bits / 8) * 8 - bits)`, with the buffer length
`n` in place of `Math.ceil(bits / 8)`. -/
def bitTrim (buf : List Nat) (bits : Nat) : Nat :=
  bufToNat buf >>> (8 * buf.length - bits)

/-- One step of the radix conversion loop of `bnToSeed`
(src/index.js lines 186-190), with explicit fuel; the fuel is irrelevant as
soon as it is at least the iteration count (see `bnToSeedIdxAux_eq_digits`). -/
def bnToSeedIdxAux (B : Nat) : Nat → Nat → List Nat
  | 0, _ => []
  | fuel + 1, i => if i = 0 then [] else i % B :: bnToSeedIdxAux B fuel (i / B)

/-- The word-index sequence produced by `bnToSeed`: repeatedly take `i % B`
then replace `i` with `i / B` until `i = 0` (least-significant digit first). -/
def bnToSeedIdx (B i : Nat) : List Nat :=
  bnToSeedIdxAux B i i

/-- The word sequence of `bnToSeed` before joining. -/
def bnToSeedWords (wordlist : List String) (i : Nat) : List String :=
  (bnToSeedIdx wordlist.length i).map fun idx => wordlist.getD idx ""

/-- `bnToSeed` from src/index.js lines 182-192: radix-encode `i` over the
wordlist and join the words with single spaces. -/
def bnToSeed (wordlist : List String) (i : Nat) : String :=
  String.intercalate " " (bnToSeedWords wordlist i)

/-- The loop condition of the mining loop (src/index.js line 99):
`brainSeed && seedVersion(brainSeed, {versionLength: version.length}) === version`
(`version` already lowercased; an empty string is falsy in JavaScript). -/
def goodPhrase (H : String → String) (version brainSeed : String) : Prop :=
  brainSeed ≠ "" ∧ seedVersion H brainSeed version.length = version

instance (H : String → String) (version brainSeed : String) :
    Decidable (goodPhrase H version brainSeed) := by
  unfold goodPhrase; infer_instance

/-- The mining loop of `randomBrainSeed` (src/index.js lines 96-107), with the
remaining number of iterations as fuel.  Each iteration adds the current nonce
to `entropyBn` (the source accumulates: `entropyBn = entropyBn.add(new BN(nonce))`),
encodes it, and stops when the version tag matches; when the fuel runs out the
last computed phrase is returned (the source falls through the `for` loop and
returns the last value of `brainSeed`). -/
def mineAux (H : String → String) (wordlist : List String) (version : String) :
    Nat → Nat → Nat → String → String
  | 0, _, _, brainSeed => brainSeed
  | fuel + 1, entropyBn, nonce, _ =>
    let entropyBn2 := entropyBn + nonce
    let brainSeed := bnToSeed wordlist entropyBn2
    if goodPhrase H version brainSeed then brainSeed
    else mineAux H wordlist version fuel entropyBn2 (nonce + 1) brainSeed

/-- The deterministic core of `randomBrainSeed` (src/index.js lines 94-108)
after the entropy has been combined and trimmed to `entropyBn`: lowercase the
version and run the mining loop with `nonce` from `1` while
`nonce < Number.MAX_SAFE_INTEGER` (hence `MAX_SAFE_INTEGER - 1` iterations). -/
def randomBrainSeed (H : String → String) (wordlist : List String)
    (version : String) (entropyBn : Nat) : String :=
  mineAux H wordlist (toLowerCase version) (MAX_SAFE_INTEGER - 1) entropyBn 1 ""

/-- The candidate value tested `j` iterations after reaching loop state
`(entropyBn, nonce)`: the source adds the nonce cumulatively. -/
def candAt (entropyBn nonce : Nat) : Nat → Nat
  | 0 => entropyBn + nonce
  | j + 1 => candAt (entropyBn + nonce) (nonce + 1) j

/-- The `Validity` result type of `checkSeed` (src/index.js lines 125-129):
`{valid: bool, error: message-or-null}`. -/
structure Validity where
  valid : Bool
  error : Option String
deriving DecidableEq, Repr

/-- Modelled from the spec (§6 phrase normalizer, §4.6 step 1) and the pinned
test message: the external `normalize` of `bip39-checker` rejects a missing or
empty phrase by throwing `seed string required`; its whitespace/Unicode
canonicalization is abstracted as the identity on nonempty phrases. -/
def normalize (brainSeed : Option String) : Except String String :=
  match brainSeed with
  | none => Except.error "seed string required"
  | some s => if s = "" then Except.error "seed string required" else Except.ok s

/-- Embedding of JavaScript `s.split(' ')` on the character data: split on
every single space, keeping empty fragments (`"".split(' ') = [""]`). -/
def splitOnSpace : List Char → List (List Char)
  | [] => [[]]
  | c :: rest =>
    let r := splitOnSpace rest
    if c = ' ' then [] :: r
    else (c :: r.headD []) :: r.tail

/-- Embedding of JavaScript `s.split(' ')` as a `String` operation. -/
def splitSpace (s : String) : List String :=
  (splitOnSpace s.data).map String.mk

/-- Modelled from the spec (§6 word-membership checker, §4.6 step 2): the
external `checkWords` of `bip39-checker` splits the phrase on spaces and checks
that every word belongs to the wordlist. -/
def checkWords (wordlist : List String) (brainSeed : String) : Bool :=
  (splitSpace brainSeed).all fun w => wordlist.contains w

/-- Modelled from the spec (§6 wordlist provider) and the pinned test message:
the external `validWordlist` of `bip39-checker` returns the wordlist of a known
language key and throws `Missing wordlist ...` for an unknown one. -/
def validWordlist (langs : List (String × List String)) (language : String) :
    Except String (List String) :=
  match langs.lookup language with
  | some wordlist => Except.ok wordlist
  | none => Except.error ("Missing wordlist " ++ language)

/-- `assertValidSeed` from src/index.js lines 169-180: lowercase the version,
require every word to be a wordlist entry, recompute the version tag and
require it to equal the expected version, annotating the mismatch message with
a short-seed hint when the phrase has fewer than 11 words. -/
def assertValidSeed (H : String → String) (wordlist : List String)
    (brainSeed : String) (version : String) : Except String Unit :=
  let version2 := toLowerCase version
  if checkWords wordlist brainSeed = false then
    Except.error "Invalid brain seed"
  else
    let sv := seedVersion H brainSeed version2.length
    if sv ≠ version2 then
      let words := (splitSpace brainSeed).length
      let shortStr :=
        if words < 11 then
          ".  Brain seeds are about 12 words but this seed is only " ++
            toString words ++ " words."
        else ""
      Except.error ("Invalid brain seed version, expecting " ++ version2 ++
        " got " ++ sv ++ shortStr)
    else
      Except.ok ()

/-- `checkSeed` from src/index.js lines 142-156 with the wordlist already
resolved: normalize, assert validity, and convert any thrown error into a
`Validity` result (the try/catch). -/
def checkSeed (H : String → String) (wordlist : List String)
    (brainSeed : Option String) (version : String := DEFAULT_VERSION) : Validity :=
  match normalize brainSeed with
  | Except.error msg => { valid := false, error := some msg }
  | Except.ok bs =>
    match assertValidSeed H wordlist bs version with
    | Except.error msg => { valid := false, error := some msg }
    | Except.ok _ => { valid := true, error := none }

/-- `checkSeed` with the language-indexed wordlist lookup made explicit: the
lookup happens inside `checkWords` (hence inside the try/catch), so an unknown
language key is caught like any other validation error. -/
def checkSeedL (H : String → String) (langs : List (String × List String))
    (brainSeed : Option String) (version : String) (language : String) : Validity :=
  match normalize brainSeed with
  | Except.error msg => { valid := false, error := some msg }
  | Except.ok bs =>
    match validWordlist langs language with
    | Except.error msg => { valid := false, error := some msg }
    | Except.ok wordlist =>
      match assertValidSeed H wordlist bs version with
      | Except.error msg => { valid := false, error := some msg }
      | Except.ok _ => { valid := true, error := none }

/-- The sixteen lowercase hexadecimal digits. -/
def hexDigits : List Char := "0123456789abcdef".data

/-! ### Helper lemmas -/

theorem bnToSeedIdxAux_eq_digits {B : Nat} (hB : 2 ≤ B) :
    ∀ fuel i, i ≤ fuel → bnToSeedIdxAux B fuel i = Nat.digits B i := by
  intro fuel
  induction fuel with
  | zero =>
    intro i hi
    have : i = 0 := Nat.le_zero.mp hi
    subst this
    simp [bnToSeedIdxAux]
  | succ fuel ih =>
    intro i hi
    by_cases h0 : i = 0
    · subst h0; simp [bnToSeedIdxAux]
    · have hpos : 0 < i := Nat.pos_of_ne_zero h0
      have hdiv : i / B < i := Nat.div_lt_self hpos (by omega)
      rw [bnToSeedIdxAux, if_neg h0, ih (i / B) (by omega),
        Nat.digits_of_two_le_of_pos hB hpos]

theorem bnToSeedIdx_eq_digits {B : Nat} (hB : 2 ≤ B) (i : Nat) :
    bnToSeedIdx B i = Nat.digits B i :=
  bnToSeedIdxAux_eq_digits hB i i (Nat.le_refl i)

theorem digits_len_le_of_lt_pow {B v k : Nat} (hB : 1 < B) (hv : v < B ^ k) :
    (Nat.digits B v).length ≤ k := by
  by_cases h0 : v = 0
  · subst h0; simp
  · by_contra hlen
    push_neg at hlen
    have h1 : B ^ (Nat.digits B v).length ≤ B * v :=
      Nat.base_pow_length_digits_le B v hB h0
    have h2 : B ^ (k + 1) ≤ B ^ (Nat.digits B v).length :=
      Nat.pow_le_pow_right (by omega) hlen
    have h3 : B * B ^ k ≤ B * v := by
      calc B * B ^ k = B ^ (k + 1) := by ring
      _ ≤ B ^ (Nat.digits B v).length := h2
      _ ≤ B * v := h1
    have := Nat.le_of_mul_le_mul_left h3 (by omega : 0 < B)
    omega

theorem two_mul_candAt (e nonce j : Nat) :
    2 * candAt e nonce j = 2 * e + 2 * ((j + 1) * nonce) + j * (j + 1) := by
  induction j generalizing e nonce with
  | zero => simp only [candAt]; ring
  | succ j ih =>
    simp only [candAt]
    rw [ih]
    ring

theorem candAt_eq (e nonce j : Nat) :
    candAt e nonce j = e + (j + 1) * nonce + j * (j + 1) / 2 := by
  have h := two_mul_candAt e nonce j
  have hdvd : 2 ∣ j * (j + 1) := (Nat.even_mul_succ_self j).two_dvd
  omega

theorem candAt_one (e j : Nat) :
    candAt e 1 j = e + (j + 1) * (j + 2) / 2 := by
  have h := two_mul_candAt e 1 j
  have hsplit : (j + 1) * (j + 2) = j * (j + 1) + 2 * (j + 1) := by ring
  have hdvd : 2 ∣ j * (j + 1) := (Nat.even_mul_succ_self j).two_dvd
  omega

theorem mineAux_first (H : String → String) (wordlist : List String) (version : String) :
    ∀ (k fuel e nonce : Nat) (last : String), k < fuel →
      goodPhrase H version (bnToSeed wordlist (candAt e nonce k)) →
      (∀ j < k, ¬ goodPhrase H version (bnToSeed wordlist (candAt e nonce j))) →
      mineAux H wordlist version fuel e nonce last =
        bnToSeed wordlist (candAt e nonce k) := by
  intro k
  induction k with
  | zero =>
    intro fuel e nonce last hk hgood _
    obtain ⟨fuel, rfl⟩ : ∃ f, fuel = f + 1 := ⟨fuel - 1, by omega⟩
    simp only [candAt] at hgood ⊢
    simp only [mineAux]
    rw [if_pos hgood]
  | succ k ih =>
    intro fuel e nonce last hk hgood hmin
    obtain ⟨fuel, rfl⟩ : ∃ f, fuel = f + 1 := ⟨fuel - 1, by omega⟩
    have h0 : ¬ goodPhrase H version (bnToSeed wordlist (e + nonce)) := by
      have := hmin 0 (by omega)
      simpa only [candAt] using this
    simp only [candAt] at hgood ⊢
    simp only [mineAux]
    rw [if_neg h0]
    exact ih fuel (e + nonce) (nonce + 1) _ (by omega) hgood
      (fun j hj => by
        have := hmin (j + 1) (by omega)
        simpa only [candAt] using this)

theorem mineAux_good (H : String → String) (wordlist : List String) (version : String) :
    ∀ (fuel e nonce : Nat) (last : String),
      (∃ j < fuel, goodPhrase H version (bnToSeed wordlist (candAt e nonce j))) →
      goodPhrase H version (mineAux H wordlist version fuel e nonce last) := by
  intro fuel
  induction fuel with
  | zero =>
    intro e nonce last h
    obtain ⟨j, hj, _⟩ := h
    omega
  | succ fuel ih =>
    intro e nonce last h
    obtain ⟨j, hj, hgood⟩ := h
    simp only [mineAux]
    by_cases h0 : goodPhrase H version (bnToSeed wordlist (e + nonce))
    · rw [if_pos h0]; exact h0
    · rw [if_neg h0]
      apply ih
      cases j with
      | zero => exact absurd (by simpa only [candAt] using hgood) h0
      | succ j => exact ⟨j, by omega, by simpa only [candAt] using hgood⟩

theorem mineAux_exhaust (H : String → String) (wordlist : List String) (version : String) :
    ∀ (fuel e nonce : Nat) (last : String),
      (∀ j < fuel + 1, ¬ goodPhrase H version (bnToSeed wordlist (candAt e nonce j))) →
      mineAux H wordlist version (fuel + 1) e nonce last =
        bnToSeed wordlist (candAt e nonce fuel) := by
  intro fuel
  induction fuel with
  | zero =>
    intro e nonce last h
    have h0 : ¬ goodPhrase H version (bnToSeed wordlist (e + nonce)) := by
      have := h 0 (by omega)
      simpa only [candAt] using this
    simp only [candAt, mineAux]
    rw [if_neg h0]
  | succ fuel ih =>
    intro e nonce last h
    have h0 : ¬ goodPhrase H version (bnToSeed wordlist (e + nonce)) := by
      have := h 0 (by omega)
      simpa only [candAt] using this
    simp only [candAt]
    conv_lhs => rw [mineAux]
    rw [if_neg h0]
    exact ih (e + nonce) (nonce + 1) _
      (fun j hj => by
        have := h (j + 1) (by omega)
        simpa only [candAt] using this)

theorem randomBrainSeed_first (H : String → String) (wordlist : List String)
    (version : String) (e k : Nat) (hk : k < MAX_SAFE_INTEGER - 1)
    (hgood : goodPhrase H (toLowerCase version) (bnToSeed wordlist (candAt e 1 k)))
    (hmin : ∀ j < k,
      ¬ goodPhrase H (toLowerCase version) (bnToSeed wordlist (candAt e 1 j))) :
    randomBrainSeed H wordlist version e = bnToSeed wordlist (candAt e 1 k) :=
  mineAux_first H wordlist (toLowerCase version) k (MAX_SAFE_INTEGER - 1) e 1 ""
    hk hgood hmin

theorem charLower_charLower (c : Char) : charLower (charLower c) = charLower c := by
  unfold charLower
  by_cases h : 65 ≤ c.toNat ∧ c.toNat ≤ 90
  · rw [if_pos h]
    obtain ⟨n, hn⟩ : ∃ n, c.toNat = n := ⟨c.toNat, rfl⟩
    rw [hn] at h ⊢
    obtain ⟨h1, h2⟩ := h
    interval_cases n <;> decide
  · rw [if_neg h, if_neg h]

theorem toLowerCase_toLowerCase (s : String) :
    toLowerCase (toLowerCase s) = toLowerCase s := by
  unfold toLowerCase
  simp [List.map_map, Function.comp_def, charLower_charLower]

theorem length_toLowerCase (s : String) : (toLowerCase s).length = s.length := by
  cases s
  simp [toLowerCase, String.length]

theorem foldl_byte_lt : ∀ (buf : List Nat), (∀ b ∈ buf, b < 256) →
    ∀ acc, List.foldl (fun acc b => acc * 256 + b) acc buf
      < (acc + 1) * 256 ^ buf.length := by
  intro buf
  induction buf with
  | nil => intro _ acc; simp
  | cons b t ih =>
    intro h acc
    simp only [List.foldl_cons, List.length_cons]
    have hb : b < 256 := h b (by simp)
    have step : List.foldl (fun acc b => acc * 256 + b) (acc * 256 + b) t
        < (acc * 256 + b + 1) * 256 ^ t.length :=
      ih (fun x hx => h x (by simp [hx])) _
    have hle : (acc * 256 + b + 1) * 256 ^ t.length ≤ (acc + 1) * 256 ^ (t.length + 1) := by
      rw [pow_succ]
      have hstep : acc * 256 + b + 1 ≤ (acc + 1) * 256 := by omega
      calc (acc * 256 + b + 1) * 256 ^ t.length
          ≤ ((acc + 1) * 256) * 256 ^ t.length := Nat.mul_le_mul_right _ hstep
        _ = (acc + 1) * (256 ^ t.length * 256) := by ring
    exact lt_of_lt_of_le step hle

theorem bufToNat_lt (buf : List Nat) (h : ∀ b ∈ buf, b < 256) :
    bufToNat buf < 2 ^ (8 * buf.length) := by
  have hmain := foldl_byte_lt buf h 0
  simp only [bufToNat]
  have h2 : (256 : Nat) ^ buf.length = 2 ^ (8 * buf.length) := by
    rw [show (256 : Nat) = 2 ^ 8 by norm_num, ← pow_mul]
  calc List.foldl (fun acc b => acc * 256 + b) 0 buf
      < (0 + 1) * 256 ^ buf.length := hmain
    _ = 256 ^ buf.length := by ring
    _ = 2 ^ (8 * buf.length) := h2

theorem string_length_data (s : String) : s.length = s.data.length := rfl

/-! ### Claim theorems -/

/-- C5: for every wordlist size `B ≥ 2` and integer `v > 0`, the word-index
encoding of `bnToSeed` takes `v % B` as the first (least-significant) index and
recurses on `v / B` until the value is zero; the produced index list decodes
back to `v` in radix `B`, and its length is the minimal number of radix-`B`
digits that can represent `v` (no padding). -/
theorem seed_C5 (B v : Nat) (hB : 2 ≤ B) (hv : 0 < v) :
    bnToSeedIdx B v = v % B :: bnToSeedIdx B (v / B) ∧
    (bnToSeedIdx B v).length = Nat.log B v + 1 ∧
    Nat.ofDigits B (bnToSeedIdx B v) = v ∧
    (∀ l : List Nat, (∀ d ∈ l, d < B) → Nat.ofDigits B l = v →
      (bnToSeedIdx B v).length ≤ l.length) := by
  have h1 : (1 : Nat) < B := by omega
  refine ⟨?_, ?_, ?_, ?_⟩
  · rw [bnToSeedIdx_eq_digits hB, bnToSeedIdx_eq_digits hB,
      Nat.digits_of_two_le_of_pos hB hv]
  · rw [bnToSeedIdx_eq_digits hB, Nat.digits_len B v h1 (by omega)]
  · rw [bnToSeedIdx_eq_digits hB, Nat.ofDigits_digits]
  · intro l hl hsum
    rw [bnToSeedIdx_eq_digits hB]
    have hlt : v < B ^ l.length := by
      rw [← hsum]
      exact Nat.ofDigits_lt_base_pow_length h1 hl
    exact digits_len_le_of_lt_pow h1 hlt

/-- Witness for C5 at `B = 2`, `v = 5`. -/
theorem seed_C5_witness :
    2 ≤ 2 ∧ 0 < 5 ∧
      (bnToSeedIdx 2 5 = 5 % 2 :: bnToSeedIdx 2 (5 / 2) ∧
       (bnToSeedIdx 2 5).length = Nat.log 2 5 + 1 ∧
       Nat.ofDigits 2 (bnToSeedIdx 2 5) = 5 ∧
       (∀ l : List Nat, (∀ d ∈ l, d < 2) → Nat.ofDigits 2 l = 5 →
         (bnToSeedIdx 2 5).length ≤ l.length)) :=
  ⟨by decide, by decide, seed_C5 2 5 (by decide) (by decide)⟩

/-- C6: the version tag of a phrase is the first `k` hex characters of the
(abstracted) HMAC-SHA512 hex digest `H` of the phrase text; it is a pure
function of the phrase text and `k` (the definition takes no language), and
tags of different lengths are coherent prefixes of each other. -/
theorem seed_C6 (H : String → String) (p : String) (j k : Nat) (hjk : j ≤ k) :
    seedVersion H p k = substringTo (H p) k ∧
    seedVersion H p j = substringTo (seedVersion H p k) j := by
  refine ⟨rfl, ?_⟩
  show String.mk ((H p).data.take j) = String.mk (((H p).data.take k).take j)
  rw [List.take_take, Nat.min_eq_left hjk]

/-- Witness for C6 at a concrete digest function and lengths `1 ≤ 2`. -/
theorem seed_C6_witness :
    1 ≤ 2 ∧
      (seedVersion (fun _ => "abcd") "x" 2 = substringTo "abcd" 2 ∧
       seedVersion (fun _ => "abcd") "x" 1 =
         substringTo (seedVersion (fun _ => "abcd") "x" 2) 1) :=
  ⟨by decide, seed_C6 (fun _ => "abcd") "x" 1 2 (by decide)⟩

/-- C7: for an `n`-byte buffer and a target `bits ≤ 8n`, the bit-trimming step
interprets the buffer as a big-endian unsigned integer, right-shifts it by
`8n - bits` (an exact truncating division by `2 ^ (8n - bits)`, so the retained
high-order bits are preserved), and the result has at most `bits` significant
bits. -/
theorem seed_C7 (buf : List Nat) (bits : Nat)
    (hbuf : ∀ b ∈ buf, b < 256) (hbits : bits ≤ 8 * buf.length) :
    bitTrim buf bits = bufToNat buf / 2 ^ (8 * buf.length - bits) ∧
    bitTrim buf bits < 2 ^ bits := by
  constructor
  · simp [bitTrim, Nat.shiftRight_eq_div_pow]
  · have hlt := bufToNat_lt buf hbuf
    simp only [bitTrim, Nat.shiftRight_eq_div_pow]
    rw [Nat.div_lt_iff_lt_mul (by positivity : 0 < 2 ^ (8 * buf.length - bits))]
    calc bufToNat buf < 2 ^ (8 * buf.length) := hlt
      _ = 2 ^ bits * 2 ^ (8 * buf.length - bits) := by
          rw [← pow_add]
          congr 1
          omega

/-- Witness for C7 at the two-byte buffer `[0xff, 0x01]` and `bits = 12`. -/
theorem seed_C7_witness :
    (∀ b ∈ [255, 1], b < 256) ∧ 12 ≤ 8 * [255, 1].length ∧
      (bitTrim [255, 1] 12 = bufToNat [255, 1] / 2 ^ (8 * [255, 1].length - 12) ∧
       bitTrim [255, 1] 12 < 2 ^ 12) :=
  ⟨by decide, by decide, seed_C7 [255, 1] 12 (by decide) (by decide)⟩

/-- C10: when the digest `H p` is a 128-character lowercase-hex string (as the
HMAC-SHA512 hex digest always is), `seedVersion` with `versionLength = k`
returns exactly `min k 128` of those hex characters — so exactly `k` characters
for `k ≤ 128`, and only 128 for larger requests — and the default
`versionLength` yields exactly 2 characters. -/
theorem seed_C10 (H : String → String) (p : String) (k : Nat)
    (hlen : (H p).length = 128)
    (hhex : ∀ c ∈ (H p).data, c ∈ hexDigits) :
    (seedVersion H p k).length = min k 128 ∧
    (∀ c ∈ (seedVersion H p k).data, c ∈ hexDigits) ∧
    (seedVersion H p).length = 2 := by
  have hd : (H p).data.length = 128 := by rw [← string_length_data]; exact hlen
  refine ⟨?_, ?_, ?_⟩
  · show ((H p).data.take k).length = min k 128
    rw [List.length_take, hd]
  · intro c hc
    exact hhex c (List.mem_of_mem_take hc)
  · show ((H p).data.take DEFAULT_VERSION.length).length = 2
    rw [List.length_take, hd]
    decide

set_option maxRecDepth 8000 in
/-- Witness for C10 at a concrete 128-character digest and `k = 3`. -/
theorem seed_C10_witness :
    (String.mk (List.replicate 128 'a')).length = 128 ∧
    (∀ c ∈ (String.mk (List.replicate 128 'a')).data, c ∈ hexDigits) ∧
      ((seedVersion (fun _ => String.mk (List.replicate 128 'a')) "x" 3).length
          = min 3 128 ∧
       (∀ c ∈ (seedVersion (fun _ => String.mk (List.replicate 128 'a')) "x" 3).data,
          c ∈ hexDigits) ∧
       (seedVersion (fun _ => String.mk (List.replicate 128 'a')) "x").length = 2) :=
  ⟨by decide, by decide,
    seed_C10 (fun _ => String.mk (List.replicate 128 'a')) "x" 3 (by decide) (by decide)⟩

/-- C1 counterexample: the claim says the candidate tested at nonce `n` is
`entropyValue + n` and the first matching such phrase is returned.  With the
digest function below, `entropyValue = 0` and version `"0"`, nonce 1 does not
match and nonce 2 does (`candidate 0 + 2`), yet `randomBrainSeed` does not
return the phrase of `0 + 2`: the source adds the nonce cumulatively, so its
second iteration tests `0 + 1 + 2 = 3` instead. -/
theorem seed_C1_counterexample :
    ¬ goodPhrase (fun s => if s = "b" then "f" else "0") "0"
        (bnToSeed ["a", "b"] (0 + 1)) ∧
    goodPhrase (fun s => if s = "b" then "f" else "0") "0"
        (bnToSeed ["a", "b"] (0 + 2)) ∧
    randomBrainSeed (fun s => if s = "b" then "f" else "0") ["a", "b"] "0" 0 ≠
      bnToSeed ["a", "b"] (0 + 2) := by
  refine ⟨by decide, by decide, ?_⟩
  have h := randomBrainSeed_first (fun s => if s = "b" then "f" else "0")
    ["a", "b"] "0" 0 1 (by decide) (by decide) (by decide)
  rw [h]
  decide

/-- C1 (amended): the mining loop accumulates the nonce into the entropy value
(`entropyBn = entropyBn.add(new BN(nonce))`), so the candidate tested at the
1-based iteration `n` is `entropyValue + n*(n+1)/2`; the loop returns the
phrase of the first iteration whose candidate encodes to a nonempty phrase
whose version tag equals the lowercased target version. -/
theorem seed_C1_amended (H : String → String) (wordlist : List String)
    (version : String) (e k : Nat) (hk1 : 1 ≤ k)
    (hkmax : k ≤ MAX_SAFE_INTEGER - 1)
    (hgood : goodPhrase H (toLowerCase version)
      (bnToSeed wordlist (e + k * (k + 1) / 2)))
    (hmin : ∀ j < k, 1 ≤ j → ¬ goodPhrase H (toLowerCase version)
      (bnToSeed wordlist (e + j * (j + 1) / 2))) :
    randomBrainSeed H wordlist version e =
      bnToSeed wordlist (e + k * (k + 1) / 2) := by
  have hc : ∀ m : Nat, 1 ≤ m → candAt e 1 (m - 1) = e + m * (m + 1) / 2 := by
    intro m hm
    rw [candAt_one]
    have h1 : m - 1 + 1 = m := by omega
    have h2 : m - 1 + 2 = m + 1 := by omega
    rw [h1, h2]
  have hgood2 : goodPhrase H (toLowerCase version)
      (bnToSeed wordlist (candAt e 1 (k - 1))) := by
    rw [hc k hk1]; exact hgood
  have hmin2 : ∀ j < k - 1, ¬ goodPhrase H (toLowerCase version)
      (bnToSeed wordlist (candAt e 1 j)) := by
    intro j hj
    have hcj := hc (j + 1) (by omega)
    rw [Nat.add_sub_cancel] at hcj
    rw [hcj]
    exact hmin (j + 1) (by omega) (by omega)
  have hres := randomBrainSeed_first H wordlist version e (k - 1)
    (by omega) hgood2 hmin2
  rw [hres, hc k hk1]

/-- Witness for the amended C1 at a digest that matches on the first
iteration (`k = 1`, candidate `0 + 1`). -/
theorem seed_C1_amended_witness :
    (1 ≤ 1 ∧ 1 ≤ MAX_SAFE_INTEGER - 1 ∧
      goodPhrase (fun _ => "0") (toLowerCase "0")
        (bnToSeed ["a", "b"] (0 + 1 * (1 + 1) / 2)) ∧
      (∀ j < 1, 1 ≤ j → ¬ goodPhrase (fun _ => "0") (toLowerCase "0")
        (bnToSeed ["a", "b"] (0 + j * (j + 1) / 2)))) ∧
    randomBrainSeed (fun _ => "0") ["a", "b"] "0" 0 =
      bnToSeed ["a", "b"] (0 + 1 * (1 + 1) / 2) :=
  ⟨⟨by decide, by decide, by decide, by decide⟩,
    seed_C1_amended (fun _ => "0") ["a", "b"] "0" 0 1
      (by decide) (by decide) (by decide) (by decide)⟩

/-- C2: whenever the mining loop can succeed within its nonce range (some
candidate phrase is nonempty with matching tag), the phrase `p` returned by
`randomBrainSeed` for a lowercase version `v` of length 1-3 satisfies
`seedVersion(p)` truncated to `len(v)` equals `v`, and — granted the external
word-membership check accepts `p` — `checkSeed(p, v)` returns
`{valid: true, error: null}`: validation inverts generation. -/
theorem seed_C2 (H : String → String) (wordlist : List String) (v : String)
    (e : Nat) (hlow : toLowerCase v = v) (hlen : 1 ≤ v.length ∧ v.length ≤ 3)
    (hex : ∃ j < MAX_SAFE_INTEGER - 1,
      goodPhrase H v (bnToSeed wordlist (candAt e 1 j)))
    (hw : checkWords wordlist (randomBrainSeed H wordlist v e) = true) :
    seedVersion H (randomBrainSeed H wordlist v e) v.length = v ∧
    checkSeed H wordlist (some (randomBrainSeed H wordlist v e)) v =
      ⟨true, none⟩ := by
  have hgood : goodPhrase H v (randomBrainSeed H wordlist v e) := by
    unfold randomBrainSeed
    rw [hlow]
    exact mineAux_good H wordlist v (MAX_SAFE_INTEGER - 1) e 1 "" hex
  obtain ⟨hne, htag⟩ := hgood
  refine ⟨htag, ?_⟩
  unfold checkSeed
  have hnorm : normalize (some (randomBrainSeed H wordlist v e)) =
      Except.ok (randomBrainSeed H wordlist v e) := by
    simp [normalize, hne]
  rw [hnorm]
  unfold assertValidSeed
  rw [hlow]
  simp [hw, htag]

/-- Witness for C2 at a digest making the very first candidate match. -/
theorem seed_C2_witness :
    (toLowerCase "01" = "01" ∧
     (1 ≤ String.length "01" ∧ String.length "01" ≤ 3) ∧
     (∃ j < MAX_SAFE_INTEGER - 1, goodPhrase (fun _ => "01") "01"
        (bnToSeed ["a", "b"] (candAt 0 1 j))) ∧
     checkWords ["a", "b"] (randomBrainSeed (fun _ => "01") ["a", "b"] "01" 0)
        = true) ∧
    (seedVersion (fun _ => "01")
        (randomBrainSeed (fun _ => "01") ["a", "b"] "01" 0)
        (String.length "01") = "01" ∧
     checkSeed (fun _ => "01") ["a", "b"]
        (some (randomBrainSeed (fun _ => "01") ["a", "b"] "01" 0)) "01" =
        ⟨true, none⟩) := by
  have hres : randomBrainSeed (fun _ => "01") ["a", "b"] "01" 0 =
      bnToSeed ["a", "b"] (candAt 0 1 0) :=
    randomBrainSeed_first (fun _ => "01") ["a", "b"] "01" 0 0
      (by decide) (by decide) (by decide)
  have hw : checkWords ["a", "b"]
      (randomBrainSeed (fun _ => "01") ["a", "b"] "01" 0) = true := by
    rw [hres]; decide
  exact ⟨⟨by decide, by decide, ⟨0, by decide, by decide⟩, hw⟩,
    seed_C2 (fun _ => "01") ["a", "b"] "01" 0 (by decide) (by decide)
      ⟨0, by decide, by decide⟩ hw⟩

theorem never_good_ff (p : String) :
    ¬ goodPhrase (fun _ : String => "ff") (toLowerCase "0") p := by
  intro hp
  have h2 : substringTo "ff" (toLowerCase "0").length = toLowerCase "0" := hp.2
  exact absurd h2 (by decide)

/-- C3 counterexample: the claim says that when the nonce range is exhausted
without a version match the loop "does not return a non-matching phrase — it
surfaces a fatal MiningExhausted error".  With a digest that never matches
version `"0"`, the source terminates and returns the phrase of the last tested
candidate, whose version tag does not match — there is no error path. -/
theorem seed_C3_counterexample :
    randomBrainSeed (fun _ => "ff") ["a", "b"] "0" 0 =
      bnToSeed ["a", "b"] (candAt 0 1 (MAX_SAFE_INTEGER - 2)) ∧
    seedVersion (fun _ => "ff")
      (randomBrainSeed (fun _ => "ff") ["a", "b"] "0" 0) 1 ≠ "0" := by
  have hnone : ∀ j < MAX_SAFE_INTEGER - 1, ¬ goodPhrase (fun _ => "ff")
      (toLowerCase "0") (bnToSeed ["a", "b"] (candAt 0 1 j)) :=
    fun j _ => never_good_ff _
  have hfuel : MAX_SAFE_INTEGER - 1 = (MAX_SAFE_INTEGER - 2) + 1 := by
    norm_num [MAX_SAFE_INTEGER]
  refine ⟨?_, by decide⟩
  unfold randomBrainSeed
  rw [hfuel]
  exact mineAux_exhaust (fun _ => "ff") ["a", "b"] (toLowerCase "0")
    (MAX_SAFE_INTEGER - 2) 0 1 "" (fun j hj => hnone j (by omega))

/-- C3 (amended): the mining loop is total — the nonce is bounded by
`Number.MAX_SAFE_INTEGER`, so the loop runs at most `MAX_SAFE_INTEGER - 2`
iterations — but when the whole range is exhausted without a match the source
returns the phrase of the last tested candidate (a non-matching phrase) rather
than surfacing a `MiningExhausted` error: no such error exists in the code. -/
theorem seed_C3_amended (H : String → String) (wordlist : List String)
    (version : String) (e : Nat)
    (hnone : ∀ j < MAX_SAFE_INTEGER - 1,
      ¬ goodPhrase H (toLowerCase version) (bnToSeed wordlist (candAt e 1 j))) :
    randomBrainSeed H wordlist version e =
      bnToSeed wordlist (candAt e 1 (MAX_SAFE_INTEGER - 2)) ∧
    ¬ goodPhrase H (toLowerCase version) (randomBrainSeed H wordlist version e) := by
  have hfuel : MAX_SAFE_INTEGER - 1 = (MAX_SAFE_INTEGER - 2) + 1 := by
    norm_num [MAX_SAFE_INTEGER]
  have hres : randomBrainSeed H wordlist version e =
      bnToSeed wordlist (candAt e 1 (MAX_SAFE_INTEGER - 2)) := by
    unfold randomBrainSeed
    rw [hfuel]
    exact mineAux_exhaust H wordlist (toLowerCase version)
      (MAX_SAFE_INTEGER - 2) e 1 "" (fun j hj => hnone j (by omega))
  refine ⟨hres, ?_⟩
  rw [hres]
  exact hnone (MAX_SAFE_INTEGER - 2) (by omega)

/-- Witness for the amended C3 at a digest that never matches version `"0"`. -/
theorem seed_C3_amended_witness :
    (∀ j < MAX_SAFE_INTEGER - 1, ¬ goodPhrase (fun _ => "ff") (toLowerCase "0")
        (bnToSeed ["a", "b"] (candAt 0 1 j))) ∧
    (randomBrainSeed (fun _ => "ff") ["a", "b"] "0" 0 =
        bnToSeed ["a", "b"] (candAt 0 1 (MAX_SAFE_INTEGER - 2)) ∧
     ¬ goodPhrase (fun _ => "ff") (toLowerCase "0")
        (randomBrainSeed (fun _ => "ff") ["a", "b"] "0" 0)) := by
  have hnone : ∀ j < MAX_SAFE_INTEGER - 1, ¬ goodPhrase (fun _ => "ff")
      (toLowerCase "0") (bnToSeed ["a", "b"] (candAt 0 1 j)) :=
    fun j _ => never_good_ff _
  exact ⟨hnone, seed_C3_amended (fun _ => "ff") ["a", "b"] "0" 0 hnone⟩

/-- C4 counterexample: the claim says an unknown language key raises out of
`checkSeed`.  In the source the whole validation body — including the wordlist
lookup — sits inside the try/catch, so an unknown language is caught and
returned as an ordinary `Validity` result, not raised. -/
theorem seed_C4_counterexample :
    checkSeedL (fun _ => "01") [("english", ["a", "b"])] (some "a") "01"
      "pig_latin" = ⟨false, some "Missing wordlist pig_latin"⟩ := by
  decide

/-- C4 (amended): `checkSeed` never raises at all: null/empty phrases, unknown
words and version mismatches are converted into `Validity{valid: false, error}`
results, and an unknown language key is likewise caught by the same handler and
returned as `Validity{valid: false, error}` instead of raising. -/
theorem seed_C4_amended (H : String → String)
    (langs : List (String × List String)) (language : String) (p v : String)
    (hp : p ≠ "") :
    checkSeedL H langs none v language = ⟨false, some "seed string required"⟩ ∧
    checkSeedL H langs (some "") v language =
      ⟨false, some "seed string required"⟩ ∧
    (langs.lookup language = none →
      checkSeedL H langs (some p) v language =
        ⟨false, some ("Missing wordlist " ++ language)⟩) ∧
    (∀ wordlist, langs.lookup language = some wordlist →
      checkWords wordlist p = false →
      checkSeedL H langs (some p) v language =
        ⟨false, some "Invalid brain seed"⟩) ∧
    (∀ wordlist, langs.lookup language = some wordlist →
      checkWords wordlist p = true →
      seedVersion H p (toLowerCase v).length ≠ toLowerCase v →
      (checkSeedL H langs (some p) v language).valid = false ∧
      (checkSeedL H langs (some p) v language).error ≠ none) := by
  refine ⟨rfl, rfl, ?_, ?_, ?_⟩
  · intro hnone
    simp [checkSeedL, normalize, hp, validWordlist, hnone]
  · intro wordlist hwl hcw
    simp [checkSeedL, normalize, hp, validWordlist, hwl, assertValidSeed, hcw]
  · intro wordlist hwl hcw hne
    simp [checkSeedL, normalize, hp, validWordlist, hwl, assertValidSeed, hcw, hne]

/-- Witness for the amended C4 at concrete inputs. -/
theorem seed_C4_amended_witness :
    ("a" : String) ≠ "" ∧
    (checkSeedL (fun _ => "01") [("english", ["a", "b"])] none "01" "english" =
        ⟨false, some "seed string required"⟩ ∧
     checkSeedL (fun _ => "01") [("english", ["a", "b"])] (some "") "01" "english" =
        ⟨false, some "seed string required"⟩ ∧
     ([("english", ["a", "b"])].lookup "english" = none →
        checkSeedL (fun _ => "01") [("english", ["a", "b"])] (some "a") "01" "english" =
          ⟨false, some ("Missing wordlist " ++ "english")⟩) ∧
     (∀ wordlist, [("english", ["a", "b"])].lookup "english" = some wordlist →
        checkWords wordlist "a" = false →
        checkSeedL (fun _ => "01") [("english", ["a", "b"])] (some "a") "01" "english" =
          ⟨false, some "Invalid brain seed"⟩) ∧
     (∀ wordlist, [("english", ["a", "b"])].lookup "english" = some wordlist →
        checkWords wordlist "a" = true →
        seedVersion (fun _ => "01") "a" (toLowerCase "01").length ≠ toLowerCase "01" →
        (checkSeedL (fun _ => "01") [("english", ["a", "b"])] (some "a") "01" "english").valid
            = false ∧
        (checkSeedL (fun _ => "01") [("english", ["a", "b"])] (some "a") "01" "english").error
            ≠ none)) :=
  ⟨by decide,
    seed_C4_amended (fun _ => "01") [("english", ["a", "b"])] "english" "a" "01"
      (by decide)⟩

/-- C8: when every word of a phrase is in the wordlist but the recomputed
version tag differs from the expected (lowercased) version, and the phrase has
fewer than 11 words, `checkSeed` returns an invalid `Validity` whose message is
the version-mismatch message annotated with the short-seed hint naming the
phrase's word count. -/
theorem seed_C8 (H : String → String) (wordlist : List String) (p v : String)
    (hp : p ≠ "") (hw : checkWords wordlist p = true)
    (hsv : seedVersion H p (toLowerCase v).length ≠ toLowerCase v)
    (hshort : (splitSpace p).length < 11) :
    checkSeed H wordlist (some p) v =
      ⟨false, some ("Invalid brain seed version, expecting " ++ toLowerCase v ++
        " got " ++ seedVersion H p (toLowerCase v).length ++
        ".  Brain seeds are about 12 words but this seed is only " ++
        toString (splitSpace p).length ++ " words.")⟩ := by
  simp [checkSeed, normalize, hp, assertValidSeed, hw, hsv, hshort,
    String.append_assoc]

/-- Witness for C8: the claim's own instance — a two-word phrase of wordlist
words whose tag mismatches produces an error message saying the seed is only
2 words. -/
theorem seed_C8_witness :
    (("lazy dog" : String) ≠ "" ∧
     checkWords ["lazy", "dog"] "lazy dog" = true ∧
     seedVersion (fun _ => "ab") "lazy dog" (toLowerCase "01").length ≠
        toLowerCase "01" ∧
     (splitSpace "lazy dog").length < 11) ∧
    checkSeed (fun _ => "ab") ["lazy", "dog"] (some "lazy dog") "01" =
      ⟨false, some ("Invalid brain seed version, expecting 01 got ab.  " ++
        "Brain seeds are about 12 words but this seed is only 2 words.")⟩ := by
  refine ⟨⟨by decide, by decide, by decide, by decide⟩, ?_⟩
  rw [seed_C8 (fun _ => "ab") ["lazy", "dog"] "lazy dog" "01"
    (by decide) (by decide) (by decide) (by decide)]
  decide

/-- C9: both generation and validation lowercase the version before using it,
so `checkSeed` yields the same `Validity` for a version and its lowercased
form, and `randomBrainSeed` mines against the lowercased version. -/
theorem seed_C9 (H : String → String) (wordlist : List String)
    (brainSeed : Option String) (V : String) (e : Nat) :
    checkSeed H wordlist brainSeed V =
      checkSeed H wordlist brainSeed (toLowerCase V) ∧
    randomBrainSeed H wordlist V e =
      randomBrainSeed H wordlist (toLowerCase V) e := by
  constructor
  · unfold checkSeed
    cases hn : normalize brainSeed with
    | error m => rfl
    | ok bs =>
      unfold assertValidSeed
      rw [toLowerCase_toLowerCase]
  · unfold randomBrainSeed
    rw [toLowerCase_toLowerCase]

end Seeder
